import Mathlib

/-!
Shallow embedding of `src/ringbuffer.hpp` (template class `RingBuffer<T, Capacity>`),
a fixed-capacity SPSC circular buffer.

Modelling choices:
* `size_t` indices are `Nat`; the C++ atomic loads/stores collapse to plain state
  reads/writes, since every claim settled here is about single-threaded executions.
* The raw slot storage `buffer_[Capacity]` is a `List (Option α)` of length
  `Capacity`: `some v` is a slot holding a live constructed element, `none` is an
  uninitialized/destroyed slot.  Placement-`new` is `List.set i (some v)`;
  calling the destructor is `List.set i none`.
* Reading a dead slot is undefined behaviour in C++; the embedding makes those
  branches observable (they bail out), and the well-formedness invariant `WF`
  proves they are unreachable.
* `PREFETCH`, `alignas`, `LIKELY`/`UNLIKELY` have no semantic content and are
  dropped.
-/

/-- `IncrementIndex` from ringbuffer.hpp line 249:
`return (index + 1) & (Capacity - 1);` -/
def IncrementIndex (Capacity index : Nat) : Nat :=
  (index + 1) &&& (Capacity - 1)

/-- The three `static_assert`s at lines 47-49 of ringbuffer.hpp:
`Capacity > 0`, `(Capacity & (Capacity - 1)) == 0`, `Capacity <= 1024*1024*1024`. -/
def capacityValid (Capacity : Nat) : Prop :=
  Capacity > 0 ∧ Capacity &&& (Capacity - 1) = 0 ∧ Capacity ≤ 1024 * 1024 * 1024

instance (Capacity : Nat) : Decidable (capacityValid Capacity) := by
  unfold capacityValid; infer_instance

/-- State of a `RingBuffer<T, Capacity>` object: the slot array and the two
cursors (`readIndex_`, `writeIndex_`). -/
structure RingBuffer (α : Type) (Capacity : Nat) where
  buffer : List (Option α)
  readIndex : Nat
  writeIndex : Nat
deriving DecidableEq, Repr

namespace RingBuffer

variable {α : Type} {C : Nat}

/-- The constructor `RingBuffer() noexcept : readIndex_(0), writeIndex_(0) {}`:
both cursors at 0, all slots uninitialized. -/
def mkEmpty (α : Type) (C : Nat) : RingBuffer α C :=
  ⟨List.replicate C none, 0, 0⟩

/-- Slot access helper: the contents of `buffer_[i]` (as an `Option`). -/
def slot (rb : RingBuffer α C) (i : Nat) : Option α :=
  rb.buffer.getD i none

/-- `Write(const T& value)` (lines 58-73).  Computes `next = IncrementIndex(w)`;
if `next == readIndex_` returns `false` leaving the object unchanged; otherwise
constructs the value at slot `w` and stores `writeIndex_ = next`.  (The move
overload at lines 80-95 is state-identical.) -/
def Write (rb : RingBuffer α C) (value : α) : Bool × RingBuffer α C :=
  let currentWrite := rb.writeIndex
  let nextWrite := IncrementIndex C currentWrite
  if nextWrite = rb.readIndex then
    (false, rb)
  else
    (true, { rb with buffer := rb.buffer.set currentWrite (some value),
                     writeIndex := nextWrite })

/-- `Read(T& value)` (lines 102-118).  `value` is the out-parameter; on failure
the C++ code leaves it untouched, so the embedding returns it unchanged.  On
success the element is moved out of slot `readIndex_`, its destructor runs
(slot becomes `none`), and `readIndex_` advances.  The dead-slot case is C++
UB; the embedding returns failure there (unreachable under `WF`). -/
def Read (rb : RingBuffer α C) (value : α) : Bool × α × RingBuffer α C :=
  let currentRead := rb.readIndex
  if currentRead = rb.writeIndex then
    (false, value, rb)
  else
    match rb.slot currentRead with
    | some v =>
        (true, v, { rb with buffer := rb.buffer.set currentRead none,
                            readIndex := IncrementIndex C currentRead })
    | none => (false, value, rb)

/-- Loop body of `WriteBatch` (lines 131-146), structural on the remaining
source elements.  `r` is the (unchanging) `readIndex_` snapshot, `buf`/`cur`
are the working slot array and local write cursor, `written` the counter.
Returns the final `(buf, cur, written)`. -/
def writeBatchGo (Cap r : Nat) (buf : List (Option α)) (cur written : Nat) :
    List α → List (Option α) × Nat × Nat
  | [] => (buf, cur, written)
  | v :: rest =>
      let nextWrite := IncrementIndex Cap cur
      if nextWrite = r then
        (buf, cur, written)
      else
        writeBatchGo Cap r (buf.set cur (some v)) nextWrite (written + 1) rest

/-- `WriteBatch(const T* values, size_t count)` (lines 126-153).  The C++ source
array `values` with its first `count` elements is modelled as
`values.take count` (callers must pass `count ≤` array length, else UB).
A single store of the final cursor happens at the end, only if `written > 0`. -/
def WriteBatch (rb : RingBuffer α C) (values : List α) (count : Nat) :
    Nat × RingBuffer α C :=
  let res := writeBatchGo C rb.readIndex rb.buffer rb.writeIndex 0 (values.take count)
  let written := res.2.2
  if written > 0 then
    (written, { rb with buffer := res.1, writeIndex := res.2.1 })
  else
    (written, rb)

/-- Loop body of `ReadBatch` (lines 166-182), with fuel `count - read` driving
structural recursion.  `w` is the (unchanging) `writeIndex_` snapshot; `dest`
is the destination array, written at position `idx` each iteration.  The
dead-slot case is C++ UB; the embedding stops there (unreachable under `WF`). -/
def readBatchGo (Cap w : Nat) (buf : List (Option α)) (cur : Nat)
    (dest : List α) (idx : Nat) : Nat → List (Option α) × Nat × List α × Nat
  | 0 => (buf, cur, dest, idx)
  | fuel + 1 =>
      if cur = w then
        (buf, cur, dest, idx)
      else
        match buf.getD cur none with
        | some v =>
            readBatchGo Cap w (buf.set cur none) (IncrementIndex Cap cur)
              (dest.set idx v) (idx + 1) fuel
        | none => (buf, cur, dest, idx)

/-- `ReadBatch(T* values, size_t count)` (lines 161-189).  Returns the read
count, the destination array after the writes into `values[0..read)`, and the
buffer state.  A single store of the final cursor happens at the end, only if
`read > 0`. -/
def ReadBatch (rb : RingBuffer α C) (dest : List α) (count : Nat) :
    Nat × List α × RingBuffer α C :=
  let res := readBatchGo C rb.writeIndex rb.buffer rb.readIndex dest 0 count
  let readCount := res.2.2.2
  if readCount > 0 then
    (readCount, res.2.2.1, { rb with buffer := res.1, readIndex := res.2.1 })
  else
    (readCount, res.2.2.1, rb)

/-- `Size()` (lines 195-199):
`write >= read ? write - read : Capacity - (read - write)`. -/
def Size (rb : RingBuffer α C) : Nat :=
  if rb.writeIndex ≥ rb.readIndex then rb.writeIndex - rb.readIndex
  else C - (rb.readIndex - rb.writeIndex)

/-- `IsEmpty()` (lines 205-208): `readIndex_ == writeIndex_`. -/
def IsEmpty (rb : RingBuffer α C) : Bool :=
  rb.readIndex = rb.writeIndex

/-- `IsFull()` (lines 214-217): `IncrementIndex(writeIndex_) == readIndex_`. -/
def IsFull (rb : RingBuffer α C) : Bool :=
  IncrementIndex C rb.writeIndex = rb.readIndex

/-- `GetCapacity()` (lines 223-225). -/
def GetCapacity (_rb : RingBuffer α C) : Nat := C

/-- Loop of `Clear` (lines 234-237), with fuel.  Besides the slot array it
returns the list of indices whose element was destroyed, in iteration order
(ghost instrumentation of the destructor calls). -/
def clearGo (Cap endIdx : Nat) (buf : List (Option α)) (cur : Nat)
    (destroyed : List Nat) : Nat → List (Option α) × List Nat
  | 0 => (buf, destroyed)
  | fuel + 1 =>
      if cur = endIdx then
        (buf, destroyed)
      else
        clearGo Cap endIdx (buf.set cur none) (IncrementIndex Cap cur)
          (destroyed ++ [cur]) fuel

/-- `Clear()` (lines 230-241): destroy every slot from `readIndex_` up to
(excluding) `writeIndex_`, then reset both cursors to 0.  Fuel `C` suffices
since at most `C - 1` elements are live.  Also returns the ghost list of
destroyed slot indices. -/
def Clear (rb : RingBuffer α C) : RingBuffer α C × List Nat :=
  let res := clearGo C rb.writeIndex rb.buffer rb.readIndex [] C
  (⟨res.1, 0, 0⟩, res.2)

/-- Circular offset of index `i` from the read cursor `r` (spec §3: a slot is
live iff its index lies in `[readIndex, writeIndex)` modulo `Capacity`). -/
def offsetFrom (Cap r i : Nat) : Nat := (i + Cap - r) % Cap

/-- Slot `i` is live in a state with cursors `r`, `w`. -/
def inLive (Cap r w i : Nat) : Prop :=
  offsetFrom Cap r i < offsetFrom Cap r w

instance (Cap r w i : Nat) : Decidable (inLive Cap r w i) := by
  unfold inLive; infer_instance

/-- Well-formedness invariant: the slot array has length `Capacity`, both
cursors are in `[0, Capacity)`, and a slot holds a live element iff its index
is in the circular range `[readIndex, writeIndex)`. -/
def WF (rb : RingBuffer α C) : Prop :=
  rb.buffer.length = C ∧ rb.readIndex < C ∧ rb.writeIndex < C ∧
  ∀ i, i < C → ((rb.slot i).isSome ↔ inLive C rb.readIndex rb.writeIndex i)

instance (rb : RingBuffer α C) : Decidable rb.WF := by
  unfold WF; infer_instance

/-- A sequence of single-element `Write` calls, one per element of the list.
Returns whether every call returned true, and the final state. -/
def writeSeqAux (rb : RingBuffer α C) : List α → Bool × RingBuffer α C
  | [] => (true, rb)
  | v :: rest =>
      let step := Write rb v
      let tail := writeSeqAux step.2 rest
      (step.1 && tail.1, tail.2)

/-- A sequence of single-element `Read` calls (at most `n` of them), stopping
at the first failure.  Returns the values read in order and the final state.
`dflt` is the initial value of the caller's out-parameter variable. -/
def readSeqAux (rb : RingBuffer α C) (dflt : α) : Nat → List α × RingBuffer α C
  | 0 => ([], rb)
  | n + 1 =>
      let step := Read rb dflt
      if step.1 then
        let tail := readSeqAux step.2.2 dflt n
        (step.2.1 :: tail.1, tail.2)
      else
        ([], step.2.2)

/-- Overwrite `dest` starting at position `idx` with the elements of a list
(how `ReadBatch` fills its destination array). -/
def setFrom (dest : List α) (idx : Nat) : List α → List α
  | [] => dest
  | v :: rest => setFrom (dest.set idx v) (idx + 1) rest

/-- The number of live (constructed) elements actually present in the slot
array. -/
def liveCount (rb : RingBuffer α C) : Nat :=
  rb.buffer.countP (fun o => o.isSome)

/-- States reachable from the freshly constructed buffer through the public
API. -/
inductive Reach : RingBuffer α C → Prop
  | mk_empty : Reach (mkEmpty α C)
  | write (rb : RingBuffer α C) (v : α) : Reach rb → Reach (Write rb v).2
  | read (rb : RingBuffer α C) (dflt : α) : Reach rb → Reach (Read rb dflt).2.2
  | write_batch (rb : RingBuffer α C) (values : List α) (count : Nat) :
      Reach rb → Reach (WriteBatch rb values count).2
  | read_batch (rb : RingBuffer α C) (dest : List α) (count : Nat) :
      Reach rb → Reach (ReadBatch rb dest count).2.2
  | clear (rb : RingBuffer α C) : Reach rb → Reach (Clear rb).1

/-! ### Arithmetic bridge lemmas -/

/-- With a power-of-two capacity, the bitmask increment is addition mod `C`
(this is exactly why the source restricts `Capacity` to powers of two). -/
lemma IncrementIndex_eq_mod (k : Nat) (hC : C = 2 ^ k) (i : Nat) :
    IncrementIndex C i = (i + 1) % C := by
  subst hC
  unfold IncrementIndex
  exact Nat.and_pow_two_sub_one_eq_mod (i + 1) k

lemma pos_of_pow {k : Nat} (hC : C = 2 ^ k) : 0 < C := by
  subst hC; exact Nat.pos_pow_of_pos k (by omega)

lemma add_one_mod_closed {i : Nat} (hC : 0 < C) (hi : i < C) :
    (i + 1) % C = if i + 1 = C then 0 else i + 1 := by
  by_cases h : i + 1 = C
  · simp [h]
  · rw [if_neg h]; exact Nat.mod_eq_of_lt (by omega)

lemma offsetFrom_closed {r i : Nat} (hr : r < C) (hi : i < C) :
    offsetFrom C r i = if r ≤ i then i - r else i + C - r := by
  unfold offsetFrom
  split
  · have h2 : i + C - r = (i - r) + C := by omega
    rw [h2, Nat.add_mod_right]
    exact Nat.mod_eq_of_lt (by omega)
  · exact Nat.mod_eq_of_lt (by omega)

/-- `offsetFrom C r` is injective on `[0, C)`. -/
lemma offsetFrom_inj {r i j : Nat} (hr : r < C) (hi : i < C) (hj : j < C)
    (h : offsetFrom C r i = offsetFrom C r j) : i = j := by
  rw [offsetFrom_closed hr hi, offsetFrom_closed hr hj] at h
  split at h <;> split at h <;> omega

lemma offsetFrom_self {r : Nat} (hr : r < C) : offsetFrom C r r = 0 := by
  rw [offsetFrom_closed hr hr]; simp

lemma offsetFrom_lt {r i : Nat} (hr : r < C) (hi : i < C) :
    offsetFrom C r i < C := by
  rw [offsetFrom_closed hr hi]; split <;> omega

/-- `Size` is the circular offset of the write cursor from the read cursor. -/
lemma Size_eq_offset (rb : RingBuffer α C) (hr : rb.readIndex < C)
    (hw : rb.writeIndex < C) :
    rb.Size = offsetFrom C rb.readIndex rb.writeIndex := by
  unfold Size
  rw [offsetFrom_closed hr hw]
  split <;> omega

lemma Size_le (rb : RingBuffer α C) (hw : rb.writeIndex < C) :
    rb.Size ≤ C - 1 := by
  unfold Size; split <;> omega

lemma Size_eq_zero_iff (rb : RingBuffer α C) (hr : rb.readIndex < C)
    (hw : rb.writeIndex < C) : rb.Size = 0 ↔ rb.readIndex = rb.writeIndex := by
  unfold Size; split <;> omega

/-- The full test `IncrementIndex(writeIndex) == readIndex` holds exactly when
`Size = C - 1`. -/
lemma full_iff_size (rb : RingBuffer α C) (k : Nat) (hC : C = 2 ^ k)
    (hr : rb.readIndex < C) (hw : rb.writeIndex < C) :
    IncrementIndex C rb.writeIndex = rb.readIndex ↔ rb.Size = C - 1 := by
  have hCpos := pos_of_pow hC
  rw [IncrementIndex_eq_mod k hC, add_one_mod_closed hCpos hw]
  unfold Size
  by_cases h : rb.writeIndex + 1 = C <;> simp only [h, if_true, if_false] <;>
    split <;> omega

/-- On a successful write the size grows by one (stated on explicit states;
`Size` does not depend on the slot array). -/
lemma size_after_write (b1 b2 : List (Option α)) (r w : Nat) (hC : 0 < C)
    (hr : r < C) (hw : w < C) (hfull : (w + 1) % C ≠ r) :
    Size (⟨b2, r, (w + 1) % C⟩ : RingBuffer α C) =
      Size (⟨b1, r, w⟩ : RingBuffer α C) + 1 := by
  have hmod := add_one_mod_closed hC hw
  simp only [Size, hmod] at hfull ⊢
  by_cases h : w + 1 = C <;> simp only [h, if_true, if_false] at hfull ⊢ <;>
    split <;> split <;> omega

/-- On a successful read the size shrinks by one. -/
lemma size_after_read (b1 b2 : List (Option α)) (r w : Nat) (hC : 0 < C)
    (hr : r < C) (hw : w < C) (hne : r ≠ w) :
    Size (⟨b2, (r + 1) % C, w⟩ : RingBuffer α C) + 1 =
      Size (⟨b1, r, w⟩ : RingBuffer α C) := by
  have hmod := add_one_mod_closed hC hr
  simp only [Size, hmod]
  by_cases h : r + 1 = C <;> simp only [h, if_true, if_false] <;>
    split <;> split <;> omega

/-! ### Slot-array helpers -/

lemma slot_set_self (rb : RingBuffer α C) (i : Nat) (x : Option α)
    (h : i < rb.buffer.length) :
    (rb.buffer.set i x).getD i none = x := by
  simp [List.getD, List.getElem?_set, h]

lemma slot_set_ne (rb : RingBuffer α C) (i j : Nat) (x : Option α)
    (h : i ≠ j) :
    (rb.buffer.set i x).getD j none = rb.buffer.getD j none := by
  simp [List.getD, List.getElem?_set, h]

lemma slot_mkEmpty (i : Nat) (h : i < C) :
    (mkEmpty α C).slot i = none := by
  unfold mkEmpty slot
  simp [List.getD, List.getElem?_replicate, h]

/-! ### Offset shift lemmas -/

lemma offsetFrom_inc {r w : Nat} (hC : 0 < C) (hr : r < C) (hw : w < C)
    (hfull : (w + 1) % C ≠ r) :
    offsetFrom C r ((w + 1) % C) = offsetFrom C r w + 1 := by
  rw [add_one_mod_closed hC hw] at hfull ⊢
  by_cases h : w + 1 = C <;> simp only [h, if_true, if_false] at hfull ⊢ <;>
    rw [offsetFrom_closed hr (by omega), offsetFrom_closed hr hw] <;>
    split <;> split <;> omega

lemma offsetFrom_dec {r i : Nat} (hC : 0 < C) (hr : r < C) (hi : i < C)
    (hne : i ≠ r) :
    offsetFrom C ((r + 1) % C) i + 1 = offsetFrom C r i := by
  have hr2 : (r + 1) % C < C := Nat.mod_lt _ hC
  rw [offsetFrom_closed hr2 hi, offsetFrom_closed hr hi,
    add_one_mod_closed hC hr]
  by_cases h : r + 1 = C <;> simp only [h, if_true, if_false] <;>
    split <;> split <;> omega

lemma offsetFrom_dec_self {r : Nat} (hC : 0 < C) (hr : r < C) :
    offsetFrom C ((r + 1) % C) r = C - 1 := by
  have hr2 : (r + 1) % C < C := Nat.mod_lt _ hC
  rw [offsetFrom_closed hr2 hr, add_one_mod_closed hC hr]
  by_cases h : r + 1 = C <;> simp only [h, if_true, if_false] <;>
    split <;> omega

/-! ### One-step rewrite lemmas for `Write` and `Read` -/

lemma Write_full (rb : RingBuffer α C) (v : α)
    (h : IncrementIndex C rb.writeIndex = rb.readIndex) :
    Write rb v = (false, rb) := by
  unfold Write; rw [if_pos h]

lemma Write_ok (rb : RingBuffer α C) (v : α)
    (h : IncrementIndex C rb.writeIndex ≠ rb.readIndex) :
    Write rb v = (true, ⟨rb.buffer.set rb.writeIndex (some v), rb.readIndex,
      IncrementIndex C rb.writeIndex⟩) := by
  unfold Write; rw [if_neg h]

lemma Read_empty (rb : RingBuffer α C) (dflt : α)
    (h : rb.readIndex = rb.writeIndex) :
    Read rb dflt = (false, dflt, rb) := by
  unfold Read; rw [if_pos h]

lemma Read_ok (rb : RingBuffer α C) (dflt v : α)
    (hne : rb.readIndex ≠ rb.writeIndex) (hslot : rb.slot rb.readIndex = some v) :
    Read rb dflt = (true, v, ⟨rb.buffer.set rb.readIndex none,
      IncrementIndex C rb.readIndex, rb.writeIndex⟩) := by
  unfold Read; rw [if_neg hne, hslot]

/-! ### Consequences of well-formedness -/

lemma WF_slot_read (rb : RingBuffer α C) (hWF : rb.WF)
    (hne : rb.readIndex ≠ rb.writeIndex) :
    ∃ v, rb.slot rb.readIndex = some v := by
  obtain ⟨hlen, hr, hw, hlive⟩ := hWF
  have hl : inLive C rb.readIndex rb.writeIndex rb.readIndex := by
    unfold inLive
    rw [offsetFrom_self hr, offsetFrom_closed hr hw]
    split <;> omega
  have := (hlive rb.readIndex hr).2 hl
  exact Option.isSome_iff_exists.1 this

lemma WF_slot_write (rb : RingBuffer α C) (hWF : rb.WF) :
    rb.slot rb.writeIndex = none := by
  obtain ⟨hlen, hr, hw, hlive⟩ := hWF
  have hl : ¬ inLive C rb.readIndex rb.writeIndex rb.writeIndex := by
    unfold inLive; omega
  rcases h : rb.slot rb.writeIndex with _ | v
  · rfl
  · exact absurd ((hlive rb.writeIndex hw).1 (by rw [h]; rfl)) hl

/-- `Write` preserves well-formedness. -/
lemma WF_write (rb : RingBuffer α C) (k : Nat) (hC : C = 2 ^ k)
    (hWF : rb.WF) (v : α) : (Write rb v).2.WF := by
  have hCpos := pos_of_pow hC
  obtain ⟨hlen, hr, hw, hlive⟩ := hWF
  by_cases hfull : IncrementIndex C rb.writeIndex = rb.readIndex
  · rw [Write_full rb v hfull]; exact ⟨hlen, hr, hw, hlive⟩
  · rw [Write_ok rb v hfull]
    rw [IncrementIndex_eq_mod k hC] at hfull ⊢
    refine ⟨by simp [hlen], hr, Nat.mod_lt _ hCpos, fun i hi => ?_⟩
    have hoff := offsetFrom_inc hCpos hr hw hfull
    show ((rb.buffer.set rb.writeIndex (some v)).getD i none).isSome ↔ _
    by_cases hiw : i = rb.writeIndex
    · rw [hiw, slot_set_self rb rb.writeIndex (some v) (by omega)]
      simp only [Option.isSome_some, inLive, hoff]
      simp
    · rw [slot_set_ne rb rb.writeIndex i (some v) (fun h => hiw h.symm)]
      have h1 := hlive i hi
      have h2 : offsetFrom C rb.readIndex i ≠ offsetFrom C rb.readIndex rb.writeIndex :=
        fun h => hiw (offsetFrom_inj hr hi hw h)
      simp only [inLive, hoff] at h1 ⊢
      constructor
      · intro h; have := h1.1 h; omega
      · intro h; exact h1.2 (by omega)

/-- `Read` preserves well-formedness. -/
lemma WF_read (rb : RingBuffer α C) (k : Nat) (hC : C = 2 ^ k)
    (hWF : rb.WF) (dflt : α) : (Read rb dflt).2.2.WF := by
  have hCpos := pos_of_pow hC
  by_cases hne : rb.readIndex = rb.writeIndex
  · rw [Read_empty rb dflt hne]; exact hWF
  · obtain ⟨v, hslot⟩ := WF_slot_read rb hWF hne
    rw [Read_ok rb dflt v hne hslot]
    obtain ⟨hlen, hr, hw, hlive⟩ := hWF
    rw [IncrementIndex_eq_mod k hC]
    refine ⟨by simp [hlen], Nat.mod_lt _ hCpos, hw, fun i hi => ?_⟩
    have hwne : rb.writeIndex ≠ rb.readIndex := fun h => hne h.symm
    have hoffw := offsetFrom_dec hCpos hr hw hwne
    show ((rb.buffer.set rb.readIndex none).getD i none).isSome ↔ _
    by_cases hir : i = rb.readIndex
    · rw [hir, slot_set_self rb rb.readIndex none (by omega)]
      have hself := offsetFrom_dec_self hCpos hr
      have hwlt := offsetFrom_lt hr hw
      simp only [Option.isSome_none, inLive, hself]
      constructor
      · intro h; exact absurd h (by simp)
      · intro h; omega
    · rw [slot_set_ne rb rb.readIndex i none (fun h => hir h.symm)]
      have h1 := hlive i hi
      have hoffi := offsetFrom_dec hCpos hr hi hir
      simp only [inLive] at h1 ⊢
      constructor
      · intro h; have := h1.1 h; omega
      · intro h; exact h1.2 (by omega)

lemma WF_mkEmpty (hC : 0 < C) : (mkEmpty α C).WF := by
  refine ⟨by simp [mkEmpty], hC, hC, fun i hi => ?_⟩
  rw [slot_mkEmpty i hi]
  simp only [mkEmpty, inLive]
  rw [offsetFrom_self hC]
  simp

/-! ### Sequential fill and drain (no wrap-around) -/

lemma set_at_join (l1 l2 : List (Option α)) (y x : Option α) :
    ((l1 ++ y :: l2).set l1.length x) = l1 ++ x :: l2 := by
  rw [List.set_append_right _ _ (Nat.le_refl _)]
  simp

lemma getD_at_join (l1 l2 : List (Option α)) (y : Option α) :
    (l1 ++ y :: l2).getD l1.length none = y := by
  simp [List.getD, List.getElem?_append_right (Nat.le_refl _)]

lemma set_at_join2 (l1 l2 : List (Option α)) (y x : Option α) (n : Nat)
    (h : l1.length = n) : (l1 ++ y :: l2).set n x = l1 ++ x :: l2 := by
  subst h; exact set_at_join l1 l2 y x

lemma getD_at_join2 (l1 l2 : List (Option α)) (y : Option α) (n : Nat)
    (h : l1.length = n) : (l1 ++ y :: l2).getD n none = y := by
  subst h; exact getD_at_join l1 l2 y

/-- Writing `vs` into a buffer already holding prefix `p` (laid out from slot 0,
not yet wrapped) succeeds entirely and extends the prefix. -/
lemma writeSeq_fill (k : Nat) (hC : C = 2 ^ k) (vs : List α) :
    ∀ p : List α, p.length + vs.length ≤ C - 1 →
    writeSeqAux (⟨p.map some ++ List.replicate (C - p.length) none, 0,
        p.length⟩ : RingBuffer α C) vs =
      (true, ⟨(p ++ vs).map some ++ List.replicate (C - (p.length + vs.length)) none,
        0, p.length + vs.length⟩) := by
  have hCpos := pos_of_pow hC
  induction vs with
  | nil =>
      intro p h
      simp [writeSeqAux]
  | cons v rest ih =>
      intro p h
      simp only [List.length_cons] at h
      have hn : p.length + 1 < C := by omega
      have hinc : IncrementIndex C p.length = p.length + 1 := by
        rw [IncrementIndex_eq_mod k hC]
        exact Nat.mod_eq_of_lt hn
      have hfull : IncrementIndex C p.length ≠ 0 := by omega
      have hsplit : C - p.length = (C - p.length - 1) + 1 := by omega
      have hbuf : (p.map some ++ List.replicate (C - p.length) none).set p.length
          (some v) = (p ++ [v]).map some ++
            List.replicate (C - (p.length + 1)) none := by
        rw [hsplit, List.replicate_succ]
        have hlm : p.length = (p.map some).length := (List.length_map p some).symm
        rw [hlm, set_at_join]
        simp [Nat.sub_sub]
      unfold writeSeqAux
      rw [Write_ok _ v hfull]
      simp only [hinc, hbuf]
      have hih := ih (p ++ [v]) (by simp; omega)
      simp only [List.length_append, List.length_cons, List.length_nil,
        Nat.zero_add] at hih
      rw [hih]
      have harith : p.length + 1 + rest.length = p.length + (rest.length + 1) := by
        omega
      simp [List.append_assoc, harith]

/-- Reading `q.length` elements from a buffer whose live region is `q` laid out
from slot `d` (not wrapped) returns exactly `q` and empties the buffer. -/
lemma readSeq_drain (k : Nat) (hC : C = 2 ^ k) (dflt : α) (q : List α) :
    ∀ d : Nat, d + q.length ≤ C - 1 →
    readSeqAux (⟨List.replicate d (none : Option α) ++ q.map some ++
        List.replicate (C - d - q.length) none, d, d + q.length⟩ : RingBuffer α C)
        dflt q.length =
      (q, ⟨List.replicate (d + q.length) (none : Option α) ++
        List.replicate (C - (d + q.length)) none, d + q.length, d + q.length⟩) := by
  have hCpos := pos_of_pow hC
  induction q with
  | nil =>
      intro d h
      simp [readSeqAux]
  | cons v rest ih =>
      intro d h
      simp only [List.length_cons] at h
      have hne : d ≠ d + (rest.length + 1) := by omega
      have hlr : (List.replicate d (none : Option α)).length = d :=
        List.length_replicate d none
      have hslot : (⟨List.replicate d (none : Option α) ++ (v :: rest).map some ++
          List.replicate (C - d - (rest.length + 1)) none, d,
          d + (rest.length + 1)⟩ : RingBuffer α C).slot d = some v := by
        show (List.replicate d (none : Option α) ++ (v :: rest).map some ++
          List.replicate (C - d - (rest.length + 1)) none).getD d none = some v
        simp only [List.map_cons, List.append_assoc, List.cons_append]
        exact getD_at_join2 _ _ _ d hlr
      have hinc : IncrementIndex C d = d + 1 := by
        rw [IncrementIndex_eq_mod k hC]
        exact Nat.mod_eq_of_lt (by omega)
      have hbuf : (List.replicate d (none : Option α) ++ (v :: rest).map some ++
          List.replicate (C - d - (rest.length + 1)) none).set d none =
          List.replicate (d + 1) (none : Option α) ++ rest.map some ++
            List.replicate (C - (d + 1) - rest.length) none := by
        simp only [List.map_cons, List.append_assoc, List.cons_append]
        rw [set_at_join2 _ _ _ _ d hlr]
        rw [List.replicate_succ' d none]
        have harith0 : C - d - (rest.length + 1) = C - (d + 1) - rest.length := by
          omega
        simp [List.append_assoc, harith0]
      simp only [List.length_cons]
      unfold readSeqAux
      rw [Read_ok _ dflt v hne hslot]
      simp only [hinc, hbuf]
      have hw2 : d + (rest.length + 1) = d + 1 + rest.length := by omega
      rw [hw2]
      have hih := ih (d + 1) (by omega)
      rw [hih]
      have harith : d + 1 + rest.length = d + (rest.length + 1) := by omega
      simp [harith]

lemma Size_write_ok (rb : RingBuffer α C) (k : Nat) (hC : C = 2 ^ k)
    (hr : rb.readIndex < C) (hw : rb.writeIndex < C)
    (hfull : IncrementIndex C rb.writeIndex ≠ rb.readIndex) (v : α) :
    (Write rb v).2.Size = rb.Size + 1 := by
  have hCpos := pos_of_pow hC
  rw [Write_ok rb v hfull]
  rw [IncrementIndex_eq_mod k hC] at hfull ⊢
  exact size_after_write rb.buffer _ rb.readIndex rb.writeIndex hCpos hr hw hfull

lemma Size_read_ok (rb : RingBuffer α C) (k : Nat) (hC : C = 2 ^ k)
    (hr : rb.readIndex < C) (hw : rb.writeIndex < C)
    (hne : rb.readIndex ≠ rb.writeIndex) (dflt v : α)
    (hslot : rb.slot rb.readIndex = some v) :
    (Read rb dflt).2.2.Size + 1 = rb.Size := by
  have hCpos := pos_of_pow hC
  rw [Read_ok rb dflt v hne hslot]
  rw [IncrementIndex_eq_mod k hC]
  exact size_after_read rb.buffer _ rb.readIndex rb.writeIndex hCpos hr hw hne

/-! ### Batch operations vs iterated single-element operations -/

/-- The `WriteBatch` loop body behaves exactly like iterating the
single-element `Write` until the buffer fills: it writes
`min vs.length (freeSlots)` elements, all those single writes succeed, and the
working slot array / cursor are the ones of the iterated-write state. -/
lemma writeBatchGo_spec (k : Nat) (hC : C = 2 ^ k) :
    ∀ (vs : List α) (rb : RingBuffer α C) (n : Nat),
    rb.readIndex < C → rb.writeIndex < C →
    (writeSeqAux rb (vs.take (min vs.length (C - 1 - rb.Size)))).1 = true ∧
    writeBatchGo C rb.readIndex rb.buffer rb.writeIndex n vs =
      ((writeSeqAux rb (vs.take (min vs.length (C - 1 - rb.Size)))).2.buffer,
       (writeSeqAux rb (vs.take (min vs.length (C - 1 - rb.Size)))).2.writeIndex,
       n + min vs.length (C - 1 - rb.Size)) := by
  have hCpos := pos_of_pow hC
  intro vs
  induction vs with
  | nil =>
      intro rb n hr hw
      simp [writeBatchGo, writeSeqAux]
  | cons v rest ih =>
      intro rb n hr hw
      by_cases hfull : IncrementIndex C rb.writeIndex = rb.readIndex
      · have hs : rb.Size = C - 1 := (full_iff_size rb k hC hr hw).1 hfull
        have hm : min (v :: rest).length (C - 1 - rb.Size) = 0 := by
          simp [hs]
        rw [hm]
        simp only [List.take_zero, writeSeqAux]
        refine ⟨trivial, ?_⟩
        unfold writeBatchGo
        rw [if_pos hfull]
        simp
      · have hs : rb.Size < C - 1 := by
          have hsle := Size_le rb hw
          have h2 := (full_iff_size rb k hC hr hw).2
          omega
        have hw2 : Write rb v = (true, ⟨rb.buffer.set rb.writeIndex (some v),
            rb.readIndex, IncrementIndex C rb.writeIndex⟩) := Write_ok rb v hfull
        have hwlt : IncrementIndex C rb.writeIndex < C := by
          rw [IncrementIndex_eq_mod k hC]
          exact Nat.mod_lt _ hCpos
        have hsz2 : Size (⟨rb.buffer.set rb.writeIndex (some v), rb.readIndex,
            IncrementIndex C rb.writeIndex⟩ : RingBuffer α C) = rb.Size + 1 := by
          have h3 := Size_write_ok rb k hC hr hw hfull v
          rw [hw2] at h3
          exact h3
        obtain ⟨ihflag, ihgo⟩ := ih ⟨rb.buffer.set rb.writeIndex (some v),
          rb.readIndex, IncrementIndex C rb.writeIndex⟩ (n + 1) hr hwlt
        dsimp only at ihflag ihgo
        rw [hsz2] at ihflag ihgo
        have hmin : min (v :: rest).length (C - 1 - rb.Size) =
            min rest.length (C - 1 - (rb.Size + 1)) + 1 := by
          simp only [List.length_cons]
          omega
        rw [hmin]
        simp only [List.take_succ_cons]
        constructor
        · simp only [writeSeqAux, hw2]
          simpa using ihflag
        · unfold writeBatchGo
          rw [if_neg hfull, ihgo]
          simp only [writeSeqAux, hw2, Prod.mk.injEq]
          refine ⟨trivial, trivial, by omega⟩

/-- The `ReadBatch` loop body behaves exactly like iterating the single-element
`Read`: it reads `min fuel Size` elements, the working slot array / cursor are
the ones of the iterated-read state, and the destination receives the values
read, in order, starting at `idx`. -/
lemma readBatchGo_spec (k : Nat) (hC : C = 2 ^ k) (dflt : α) :
    ∀ (fuel : Nat) (rb : RingBuffer α C) (dest : List α) (idx : Nat), rb.WF →
    (readSeqAux rb dflt fuel).1.length = min fuel rb.Size ∧
    readBatchGo C rb.writeIndex rb.buffer rb.readIndex dest idx fuel =
      ((readSeqAux rb dflt fuel).2.buffer, (readSeqAux rb dflt fuel).2.readIndex,
       setFrom dest idx (readSeqAux rb dflt fuel).1,
       idx + (readSeqAux rb dflt fuel).1.length) := by
  have hCpos := pos_of_pow hC
  intro fuel
  induction fuel with
  | zero =>
      intro rb dest idx hWF
      simp [readBatchGo, readSeqAux, setFrom]
  | succ fuel ih =>
      intro rb dest idx hWF
      obtain ⟨hlen, hr, hw, hlive⟩ := hWF
      by_cases hne : rb.readIndex = rb.writeIndex
      · have hs : rb.Size = 0 := (Size_eq_zero_iff rb hr hw).2 hne
        have hrd : Read rb dflt = (false, dflt, rb) := Read_empty rb dflt hne
        simp [readBatchGo, readSeqAux, hrd, hne, hs, setFrom]
      · obtain ⟨v, hslot⟩ := WF_slot_read rb ⟨hlen, hr, hw, hlive⟩ hne
        have hrd : Read rb dflt = (true, v, ⟨rb.buffer.set rb.readIndex none,
            IncrementIndex C rb.readIndex, rb.writeIndex⟩) :=
          Read_ok rb dflt v hne hslot
        have hWF2 : (⟨rb.buffer.set rb.readIndex none,
            IncrementIndex C rb.readIndex, rb.writeIndex⟩ : RingBuffer α C).WF := by
          have h4 := WF_read rb k hC ⟨hlen, hr, hw, hlive⟩ dflt
          rw [hrd] at h4
          exact h4
        have hsz2 : Size (⟨rb.buffer.set rb.readIndex none,
            IncrementIndex C rb.readIndex, rb.writeIndex⟩ : RingBuffer α C) + 1 =
            rb.Size := by
          have h4 := Size_read_ok rb k hC hr hw hne dflt v hslot
          rw [hrd] at h4
          exact h4
        obtain ⟨ihlen, ihgo⟩ := ih ⟨rb.buffer.set rb.readIndex none,
          IncrementIndex C rb.readIndex, rb.writeIndex⟩ (dest.set idx v) (idx + 1)
          hWF2
        dsimp only at ihlen ihgo
        constructor
        · simp [readSeqAux, hrd, ihlen]
          omega
        · unfold readBatchGo
          rw [if_neg hne]
          have hslot2 : rb.buffer.getD rb.readIndex none = some v := hslot
          simp only [hslot2]
          rw [ihgo]
          simp [readSeqAux, hrd, setFrom]
          try omega

/-! ### Cursor ownership: which operations move which cursor -/

lemma Write_readIndex (rb : RingBuffer α C) (v : α) :
    (Write rb v).2.readIndex = rb.readIndex := by
  by_cases h : IncrementIndex C rb.writeIndex = rb.readIndex
  · rw [Write_full rb v h]
  · rw [Write_ok rb v h]

lemma Write_writeIndex (rb : RingBuffer α C) (v : α) :
    (Write rb v).2.writeIndex = rb.writeIndex ∨
    (Write rb v).2.writeIndex = IncrementIndex C rb.writeIndex := by
  by_cases h : IncrementIndex C rb.writeIndex = rb.readIndex
  · left; rw [Write_full rb v h]
  · right; rw [Write_ok rb v h]

lemma Read_writeIndex (rb : RingBuffer α C) (dflt : α) :
    (Read rb dflt).2.2.writeIndex = rb.writeIndex := by
  simp only [Read]
  by_cases h : rb.readIndex = rb.writeIndex
  · rw [if_pos h]
  · rw [if_neg h]
    cases rb.slot rb.readIndex <;> rfl

lemma Read_readIndex (rb : RingBuffer α C) (dflt : α) :
    (Read rb dflt).2.2.readIndex = rb.readIndex ∨
    (Read rb dflt).2.2.readIndex = IncrementIndex C rb.readIndex := by
  simp only [Read]
  by_cases h : rb.readIndex = rb.writeIndex
  · rw [if_pos h]; exact Or.inl rfl
  · rw [if_neg h]
    cases rb.slot rb.readIndex
    · exact Or.inl rfl
    · exact Or.inr rfl

lemma WriteBatch_readIndex (rb : RingBuffer α C) (values : List α) (count : Nat) :
    (WriteBatch rb values count).2.readIndex = rb.readIndex := by
  simp only [WriteBatch]
  split <;> rfl

lemma ReadBatch_writeIndex (rb : RingBuffer α C) (dest : List α) (count : Nat) :
    (ReadBatch rb dest count).2.2.writeIndex = rb.writeIndex := by
  simp only [ReadBatch]
  split <;> rfl

lemma writeSeqAux_readIndex (vs : List α) :
    ∀ rb : RingBuffer α C, (writeSeqAux rb vs).2.readIndex = rb.readIndex := by
  induction vs with
  | nil => intro rb; rfl
  | cons v rest ih =>
      intro rb
      simp only [writeSeqAux]
      rw [ih (Write rb v).2, Write_readIndex]

lemma readSeqAux_writeIndex (n : Nat) :
    ∀ (rb : RingBuffer α C) (dflt : α),
    (readSeqAux rb dflt n).2.writeIndex = rb.writeIndex := by
  induction n with
  | zero => intro rb dflt; rfl
  | succ n ih =>
      intro rb dflt
      simp only [readSeqAux]
      split
      · rw [ih (Read rb dflt).2.2 dflt, Read_writeIndex]
      · rw [Read_writeIndex]

lemma WF_writeSeqAux (k : Nat) (hC : C = 2 ^ k) (vs : List α) :
    ∀ rb : RingBuffer α C, rb.WF → (writeSeqAux rb vs).2.WF := by
  induction vs with
  | nil => intro rb hWF; exact hWF
  | cons v rest ih =>
      intro rb hWF
      simp only [writeSeqAux]
      exact ih (Write rb v).2 (WF_write rb k hC hWF v)

lemma WF_readSeqAux (k : Nat) (hC : C = 2 ^ k) (n : Nat) :
    ∀ (rb : RingBuffer α C) (dflt : α), rb.WF → (readSeqAux rb dflt n).2.WF := by
  induction n with
  | zero => intro rb dflt hWF; exact hWF
  | succ n ih =>
      intro rb dflt hWF
      simp only [readSeqAux]
      split
      · exact ih (Read rb dflt).2.2 dflt (WF_read rb k hC hWF dflt)
      · exact WF_read rb k hC hWF dflt

/-- A failed `Read` (empty buffer, or the UB dead-slot case) leaves both the
out-parameter and the buffer state untouched. -/
lemma Read_fail (rb : RingBuffer α C) (dflt : α)
    (h : (Read rb dflt).1 = false) :
    (Read rb dflt).2.1 = dflt ∧ (Read rb dflt).2.2 = rb := by
  simp only [Read] at h ⊢
  by_cases h1 : rb.readIndex = rb.writeIndex
  · rw [if_pos h1]; exact ⟨rfl, rfl⟩
  · rw [if_neg h1] at h ⊢
    cases h2 : rb.slot rb.readIndex with
    | none => exact ⟨rfl, rfl⟩
    | some v => rw [h2] at h; simp at h

lemma readSeqAux_nil (n : Nat) (rb : RingBuffer α C) (dflt : α)
    (h : (readSeqAux rb dflt n).1 = []) : (readSeqAux rb dflt n).2 = rb := by
  cases n with
  | zero => rfl
  | succ n =>
      simp only [readSeqAux] at h ⊢
      by_cases hs : (Read rb dflt).1 = true
      · rw [if_pos hs] at h; simp at h
      · rw [if_neg hs]
        exact (Read_fail rb dflt (by simpa using hs)).2

/-- `WriteBatch` equals the iterated-`Write` state on the successful prefix
and returns the number of free slots actually consumed. -/
lemma WriteBatch_spec (rb : RingBuffer α C) (k : Nat) (hC : C = 2 ^ k)
    (hr : rb.readIndex < C) (hw : rb.writeIndex < C)
    (values : List α) (count : Nat) (hcount : count ≤ values.length) :
    (WriteBatch rb values count).1 = min count (C - 1 - rb.Size) ∧
    (writeSeqAux rb (values.take (min count (C - 1 - rb.Size)))).1 = true ∧
    (WriteBatch rb values count).2 =
      (writeSeqAux rb (values.take (min count (C - 1 - rb.Size)))).2 := by
  obtain ⟨hflag, hgo⟩ := writeBatchGo_spec k hC (values.take count) rb 0 hr hw
  have hlen : (values.take count).length = count := by
    simp [List.length_take]; omega
  rw [hlen] at hflag hgo
  have htt : (values.take count).take (min count (C - 1 - rb.Size)) =
      values.take (min count (C - 1 - rb.Size)) := by
    rw [List.take_take]
    congr 1
    omega
  rw [htt] at hflag hgo
  refine ⟨?_, hflag, ?_⟩
  · simp only [WriteBatch]
    rw [hgo]
    split <;> simp
  · simp only [WriteBatch]
    rw [hgo]
    dsimp only
    simp only [Nat.zero_add]
    by_cases hm : min count (C - 1 - rb.Size) > 0
    · rw [if_pos hm]
      have hri := writeSeqAux_readIndex (values.take (min count (C - 1 - rb.Size))) rb
      cases hst : (writeSeqAux rb (values.take (min count (C - 1 - rb.Size)))).2 with
      | mk b r2 w2 =>
          rw [hst] at hri
          simp only at hri
          simp [hri]
    · have hm0 : min count (C - 1 - rb.Size) = 0 := by omega
      rw [if_neg hm, hm0]
      simp [writeSeqAux]

/-- `ReadBatch` equals the iterated-`Read` state, returns
`min count Size`, and overwrites exactly the prefix of the destination with the
values read. -/
lemma ReadBatch_spec (rb : RingBuffer α C) (k : Nat) (hC : C = 2 ^ k)
    (hWF : rb.WF) (dflt : α) (dest : List α) (count : Nat) :
    (ReadBatch rb dest count).1 = min count rb.Size ∧
    (readSeqAux rb dflt count).1.length = min count rb.Size ∧
    (ReadBatch rb dest count).2.1 = setFrom dest 0 (readSeqAux rb dflt count).1 ∧
    (ReadBatch rb dest count).2.2 = (readSeqAux rb dflt count).2 := by
  obtain ⟨hlen, hgo⟩ := readBatchGo_spec k hC dflt count rb dest 0 hWF
  refine ⟨?_, hlen, ?_, ?_⟩
  · simp only [ReadBatch]
    rw [hgo]
    dsimp only
    split <;> simpa using hlen
  · simp only [ReadBatch]
    rw [hgo]
    dsimp only
    split <;> rfl
  · simp only [ReadBatch]
    rw [hgo]
    dsimp only
    split
    · have hwi := readSeqAux_writeIndex count rb dflt
      cases hst : (readSeqAux rb dflt count).2 with
      | mk b r2 w2 =>
          rw [hst] at hwi
          simp only at hwi
          simp [hwi]
    · rename_i hcnt
      simp only [Nat.zero_add, Nat.not_lt, Nat.le_zero] at hcnt
      have h0 : (readSeqAux rb dflt count).1 = [] :=
        List.length_eq_zero.1 hcnt
      exact (readSeqAux_nil count rb dflt h0).symm

/-- Overwriting a prefix region: `setFrom dest idx vals` splices `vals` into
`dest` at `idx`, keeping everything outside `[idx, idx + vals.length)`. -/
lemma setFrom_eq (vals : List α) :
    ∀ (dest : List α) (idx : Nat), idx + vals.length ≤ dest.length →
    setFrom dest idx vals =
      dest.take idx ++ vals ++ dest.drop (idx + vals.length) := by
  induction vals with
  | nil =>
      intro dest idx h
      simp [setFrom, List.take_append_drop]
  | cons v rest ih =>
      intro dest idx h
      simp only [List.length_cons] at h
      simp only [setFrom]
      rw [ih (dest.set idx v) (idx + 1) (by simp; omega)]
      have htake : (dest.set idx v).take (idx + 1) = dest.take idx ++ [v] := by
        rw [List.set_take]
        rw [List.set_eq_take_cons_drop v (l := dest.take (idx + 1))
          (by simp [List.length_take]; omega)]
        simp [List.take_take, List.drop_take]
      have hdrop : (dest.set idx v).drop (idx + 1 + rest.length) =
          dest.drop (idx + 1 + rest.length) := by
        rw [List.drop_set, if_pos (by omega)]
      rw [htake, hdrop]
      have harith : idx + (rest.length + 1) = idx + 1 + rest.length := by omega
      simp [List.append_assoc, List.length_cons, harith]

/-! ### `readBatchGo` step equations and destination preservation -/

lemma readBatchGo_succ_stop1 (w : Nat) (buf : List (Option α)) (cur : Nat)
    (dest : List α) (idx fuel : Nat) (h : cur = w) :
    readBatchGo C w buf cur dest idx (fuel + 1) = (buf, cur, dest, idx) := by
  unfold readBatchGo
  rw [if_pos h]

lemma readBatchGo_succ_stop2 (w : Nat) (buf : List (Option α)) (cur : Nat)
    (dest : List α) (idx fuel : Nat) (h : cur ≠ w)
    (hs : buf.getD cur none = none) :
    readBatchGo C w buf cur dest idx (fuel + 1) = (buf, cur, dest, idx) := by
  unfold readBatchGo
  rw [if_neg h]
  simp only [hs]

lemma readBatchGo_succ_step (w : Nat) (buf : List (Option α)) (cur : Nat)
    (dest : List α) (idx fuel : Nat) (v : α) (h : cur ≠ w)
    (hs : buf.getD cur none = some v) :
    readBatchGo C w buf cur dest idx (fuel + 1) =
      readBatchGo C w (buf.set cur none) (IncrementIndex C cur)
        (dest.set idx v) (idx + 1) fuel := by
  conv_lhs => unfold readBatchGo
  rw [if_neg h]
  simp only [hs]

/-- The destination index of the `ReadBatch` loop never decreases. -/
lemma readBatchGo_idx_le (w : Nat) :
    ∀ (fuel : Nat) (buf : List (Option α)) (cur : Nat) (dest : List α)
    (idx : Nat), idx ≤ (readBatchGo C w buf cur dest idx fuel).2.2.2 := by
  intro fuel
  induction fuel with
  | zero => intro buf cur dest idx; exact Nat.le_refl idx
  | succ fuel ih =>
      intro buf cur dest idx
      by_cases h : cur = w
      · rw [readBatchGo_succ_stop1 w buf cur dest idx fuel h]
      · cases hs : buf.getD cur none with
        | none => rw [readBatchGo_succ_stop2 w buf cur dest idx fuel h hs]
        | some v =>
            rw [readBatchGo_succ_step w buf cur dest idx fuel v h hs]
            have h2 := ih (buf.set cur none) (IncrementIndex C cur)
              (dest.set idx v) (idx + 1)
            omega

/-- The `ReadBatch` loop writes only destination positions in
`[idx, final idx)`; everything at or beyond the final index (and everything
before the starting index) is untouched. -/
lemma readBatchGo_untouched (w : Nat) :
    ∀ (fuel : Nat) (buf : List (Option α)) (cur : Nat) (dest : List α)
    (idx j : Nat),
    ((readBatchGo C w buf cur dest idx fuel).2.2.2 ≤ j ∨ j < idx) →
    ((readBatchGo C w buf cur dest idx fuel).2.2.1)[j]? = dest[j]? := by
  intro fuel
  induction fuel with
  | zero => intro buf cur dest idx j h; rfl
  | succ fuel ih =>
      intro buf cur dest idx j h
      by_cases hcw : cur = w
      · rw [readBatchGo_succ_stop1 w buf cur dest idx fuel hcw]
      · cases hs : buf.getD cur none with
        | none => rw [readBatchGo_succ_stop2 w buf cur dest idx fuel hcw hs]
        | some v =>
            rw [readBatchGo_succ_step w buf cur dest idx fuel v hcw hs] at h ⊢
            have hmono := @readBatchGo_idx_le α C w fuel (buf.set cur none)
              (IncrementIndex C cur) (dest.set idx v) (idx + 1)
            have hne : idx ≠ j := by omega
            rw [ih (buf.set cur none) (IncrementIndex C cur) (dest.set idx v)
              (idx + 1) j (by omega)]
            simp [List.getElem?_set, hne]

/-! ### `Clear`: full destruction of the live region -/

lemma add_mod_closed {r j : Nat} (hr : r < C) (hj : j < C) :
    (r + j) % C = if r + j < C then r + j else r + j - C := by
  split
  · exact Nat.mod_eq_of_lt (by omega)
  · have h2 : (r + j) % C = ((r + j - C) + C) % C := by
      congr 1
      omega
    rw [h2, Nat.add_mod_right]
    exact Nat.mod_eq_of_lt (by omega)

lemma offsetFrom_add {r j : Nat} (hr : r < C) (hj : j < C) :
    offsetFrom C r ((r + j) % C) = j := by
  have h1 : (r + j) % C < C := Nat.mod_lt _ (by omega)
  have hx := add_mod_closed hr hj
  rw [offsetFrom_closed hr h1]
  by_cases h2 : r + j < C
  · rw [hx, if_pos h2]
    split <;> omega
  · rw [hx, if_neg h2]
    split <;> omega

lemma add_offsetFrom {r i : Nat} (hr : r < C) (hi : i < C) :
    (r + offsetFrom C r i) % C = i := by
  rw [offsetFrom_closed hr hi]
  by_cases h2 : r ≤ i
  · rw [if_pos h2]
    have h3 : r + (i - r) = i := by omega
    rw [h3]
    exact Nat.mod_eq_of_lt hi
  · rw [if_neg h2]
    have h3 : r + (i + C - r) = i + C := by omega
    rw [h3, Nat.add_mod_right]
    exact Nat.mod_eq_of_lt hi

/-- The list of slot indices in the live region `[r, w)` (as iterated by
`Clear`) contains exactly the live indices. -/
lemma liveIdx_mem (r w : Nat) (hr : r < C) (hw : w < C) (i : Nat) :
    (i ∈ (List.range (offsetFrom C r w)).map (fun j => (r + j) % C)) ↔
      (i < C ∧ inLive C r w i) := by
  have hoflt := offsetFrom_lt hr hw
  simp only [List.mem_map, List.mem_range]
  constructor
  · rintro ⟨j, hj, rfl⟩
    have hjC : j < C := by omega
    refine ⟨Nat.mod_lt _ (by omega), ?_⟩
    unfold inLive
    rw [offsetFrom_add hr hjC]
    exact hj
  · rintro ⟨hiC, hlive⟩
    exact ⟨offsetFrom C r i, hlive, add_offsetFrom hr hiC⟩

/-- `Clear` iterates over each live slot exactly once. -/
lemma liveIdx_nodup (r w : Nat) (hr : r < C) (hw : w < C) :
    ((List.range (offsetFrom C r w)).map (fun j => (r + j) % C)).Nodup := by
  have hoflt := offsetFrom_lt hr hw
  refine List.Nodup.map_on ?_ (List.nodup_range _)
  intro x hx y hy hxy
  simp only [List.mem_range] at hx hy
  have hxC : x < C := by omega
  have hyC : y < C := by omega
  have h1 := offsetFrom_add (C := C) (r := r) hr hxC
  have h2 := offsetFrom_add (C := C) (r := r) hr hyC
  rw [hxy] at h1
  omega

/-- Under `WF` with no live elements, every slot is uninitialized. -/
lemma WF_empty_buffer (rb : RingBuffer α C) (hWF : rb.WF) (hs : rb.Size = 0) :
    rb.buffer = List.replicate C none := by
  obtain ⟨hlen, hr, hw, hlive⟩ := hWF
  apply List.ext_getElem?
  intro n
  by_cases hn : n < C
  · have h1 : ¬ inLive C rb.readIndex rb.writeIndex n := by
      have hrw : rb.readIndex = rb.writeIndex := (Size_eq_zero_iff rb hr hw).1 hs
      unfold inLive
      rw [hrw, offsetFrom_self hw]
      omega
    have h3 : rb.slot n = none := by
      cases hsl : rb.slot n with
      | none => rfl
      | some v => exact absurd ((hlive n hn).1 (by rw [hsl]; rfl)) h1
    have h5 : n < rb.buffer.length := by omega
    rw [List.getElem?_eq_getElem h5]
    have h6 := List.getD_eq_getElem rb.buffer none h5
    unfold slot at h3
    rw [h6] at h3
    rw [h3, List.getElem?_replicate, if_pos hn]
  · rw [List.getElem?_eq_none (by omega), List.getElem?_replicate, if_neg hn]

lemma clearGo_succ_stop (endIdx : Nat) (buf : List (Option α)) (cur : Nat)
    (acc : List Nat) (fuel : Nat) (h : cur = endIdx) :
    clearGo C endIdx buf cur acc (fuel + 1) = (buf, acc) := by
  unfold clearGo
  rw [if_pos h]

lemma clearGo_succ_step (endIdx : Nat) (buf : List (Option α)) (cur : Nat)
    (acc : List Nat) (fuel : Nat) (h : cur ≠ endIdx) :
    clearGo C endIdx buf cur acc (fuel + 1) =
      clearGo C endIdx (buf.set cur none) (IncrementIndex C cur)
        (acc ++ [cur]) fuel := by
  conv_lhs => unfold clearGo
  rw [if_neg h]

/-- The `Clear` loop, run with enough fuel on a well-formed state, empties the
whole slot array and calls the destructor exactly on the live region, in
order. -/
lemma clearGo_spec (k : Nat) (hC : C = 2 ^ k) :
    ∀ (fuel : Nat) (rb : RingBuffer α C) (acc : List Nat), rb.WF →
    rb.Size ≤ fuel →
    clearGo C rb.writeIndex rb.buffer rb.readIndex acc fuel =
      (List.replicate C none,
       acc ++ (List.range rb.Size).map (fun j => (rb.readIndex + j) % C)) := by
  have hCpos := pos_of_pow hC
  intro fuel
  induction fuel with
  | zero =>
      intro rb acc hWF hfuel
      have hs : rb.Size = 0 := by omega
      have hb := WF_empty_buffer rb hWF hs
      simp [clearGo, hb, hs]
  | succ fuel ih =>
      intro rb acc hWF hfuel
      obtain ⟨hlen, hr, hw, hlive⟩ := hWF
      by_cases hne : rb.readIndex = rb.writeIndex
      · have hs : rb.Size = 0 := (Size_eq_zero_iff rb hr hw).2 hne
        have hb := WF_empty_buffer rb ⟨hlen, hr, hw, hlive⟩ hs
        rw [clearGo_succ_stop rb.writeIndex rb.buffer rb.readIndex acc fuel hne]
        simp [hb, hs]
      · obtain ⟨v, hslot⟩ := WF_slot_read rb ⟨hlen, hr, hw, hlive⟩ hne
        have hrd : Read rb v = (true, v, ⟨rb.buffer.set rb.readIndex none,
            IncrementIndex C rb.readIndex, rb.writeIndex⟩) := Read_ok rb v v hne hslot
        have hWF2 : (⟨rb.buffer.set rb.readIndex none,
            IncrementIndex C rb.readIndex, rb.writeIndex⟩ : RingBuffer α C).WF := by
          have h4 := WF_read rb k hC ⟨hlen, hr, hw, hlive⟩ v
          rw [hrd] at h4
          exact h4
        have hsz2 : Size (⟨rb.buffer.set rb.readIndex none,
            IncrementIndex C rb.readIndex, rb.writeIndex⟩ : RingBuffer α C) + 1 =
            rb.Size := by
          have h4 := Size_read_ok rb k hC hr hw hne v v hslot
          rw [hrd] at h4
          exact h4
        rw [clearGo_succ_step rb.writeIndex rb.buffer rb.readIndex acc fuel hne]
        have hih := ih ⟨rb.buffer.set rb.readIndex none,
          IncrementIndex C rb.readIndex, rb.writeIndex⟩ (acc ++ [rb.readIndex])
          hWF2 (by omega)
        dsimp only at hih
        rw [hih]
        simp only [Prod.mk.injEq, true_and]
        rw [← hsz2, List.range_succ_eq_map]
        have hfun : (fun j => (IncrementIndex C rb.readIndex + j) % C) =
            ((fun j => (rb.readIndex + j) % C) ∘ Nat.succ) := by
          funext j
          show (IncrementIndex C rb.readIndex + j) % C =
            (rb.readIndex + Nat.succ j) % C
          rw [IncrementIndex_eq_mod k hC, Nat.mod_add_mod]
          congr 1
          omega
        rw [hfun]
        simp only [List.map_cons, List.map_map]
        have hr0 : (rb.readIndex + 0) % C = rb.readIndex := by
          rw [Nat.add_zero]
          exact Nat.mod_eq_of_lt hr
        rw [hr0]
        simp [List.append_assoc]

/-- `Clear` on a well-formed buffer: all slots end uninitialized, both cursors
reset to 0, and the destructor ran once per live slot, in ring order. -/
lemma Clear_spec (rb : RingBuffer α C) (k : Nat) (hC : C = 2 ^ k)
    (hWF : rb.WF) :
    Clear rb = (⟨List.replicate C none, 0, 0⟩,
      (List.range rb.Size).map (fun j => (rb.readIndex + j) % C)) := by
  have hfuel : rb.Size ≤ C := le_trans (Size_le rb hWF.2.2.1) (Nat.sub_le C 1)
  have hgo := clearGo_spec k hC C rb [] hWF hfuel
  simp only [Clear]
  rw [hgo]
  simp

/-! ### Well-formedness preservation for the batch operations and `Clear` -/

lemma WF_WriteBatch (rb : RingBuffer α C) (k : Nat) (hC : C = 2 ^ k)
    (hWF : rb.WF) (values : List α) (count : Nat) :
    (WriteBatch rb values count).2.WF := by
  obtain ⟨hlen, hr, hw, hlive⟩ := hWF
  obtain ⟨hflag, hgo⟩ := writeBatchGo_spec k hC (values.take count) rb 0 hr hw
  simp only [WriteBatch]
  rw [hgo]
  dsimp only
  have hS := WF_writeSeqAux k hC
    ((values.take count).take (min (values.take count).length (C - 1 - rb.Size)))
    rb ⟨hlen, hr, hw, hlive⟩
  have hri := writeSeqAux_readIndex
    ((values.take count).take (min (values.take count).length (C - 1 - rb.Size))) rb
  split
  · cases hst : (writeSeqAux rb
        ((values.take count).take
          (min (values.take count).length (C - 1 - rb.Size)))).2 with
    | mk b r2 w2 =>
        rw [hst] at hS hri
        simp only at hri
        rw [← hri]
        exact hS
  · exact ⟨hlen, hr, hw, hlive⟩

/-- WF of the `ReadBatch` loop result (stated without needing a default
element of `α`). -/
lemma WF_readBatchGo (k : Nat) (hC : C = 2 ^ k) :
    ∀ (fuel : Nat) (rb : RingBuffer α C) (dest : List α) (idx : Nat), rb.WF →
    ((⟨(readBatchGo C rb.writeIndex rb.buffer rb.readIndex dest idx fuel).1,
      (readBatchGo C rb.writeIndex rb.buffer rb.readIndex dest idx fuel).2.1,
      rb.writeIndex⟩ : RingBuffer α C)).WF := by
  intro fuel
  induction fuel with
  | zero =>
      intro rb dest idx hWF
      exact hWF
  | succ fuel ih =>
      intro rb dest idx hWF
      by_cases hne : rb.readIndex = rb.writeIndex
      · rw [readBatchGo_succ_stop1 rb.writeIndex rb.buffer rb.readIndex dest idx
          fuel hne]
        exact hWF
      · obtain ⟨v, hslot⟩ := WF_slot_read rb hWF hne
        rw [readBatchGo_succ_step rb.writeIndex rb.buffer rb.readIndex dest idx
          fuel v hne (show rb.buffer.getD rb.readIndex none = some v from hslot)]
        have hWF2 : (⟨rb.buffer.set rb.readIndex none,
            IncrementIndex C rb.readIndex, rb.writeIndex⟩ : RingBuffer α C).WF := by
          have h4 := WF_read rb k hC hWF v
          rw [Read_ok rb v v hne hslot] at h4
          exact h4
        have h5 := ih ⟨rb.buffer.set rb.readIndex none,
          IncrementIndex C rb.readIndex, rb.writeIndex⟩ (dest.set idx v) (idx + 1)
          hWF2
        dsimp only at h5
        exact h5

lemma WF_ReadBatch (rb : RingBuffer α C) (k : Nat) (hC : C = 2 ^ k)
    (hWF : rb.WF) (dest : List α) (count : Nat) :
    (ReadBatch rb dest count).2.2.WF := by
  have hgo := WF_readBatchGo k hC count rb dest 0 hWF
  simp only [ReadBatch]
  split
  · exact hgo
  · exact hWF

lemma WF_Clear (rb : RingBuffer α C) (k : Nat) (hC : C = 2 ^ k)
    (hWF : rb.WF) : (Clear rb).1.WF := by
  rw [Clear_spec rb k hC hWF]
  exact WF_mkEmpty (pos_of_pow hC)

/-- Every state reachable through the public API is well-formed. -/
lemma Reach_WF (k : Nat) (hC : C = 2 ^ k) (rb : RingBuffer α C)
    (h : Reach rb) : rb.WF := by
  induction h with
  | mk_empty => exact WF_mkEmpty (pos_of_pow hC)
  | write rb2 v _ ih => exact WF_write rb2 k hC ih v
  | read rb2 dflt _ ih => exact WF_read rb2 k hC ih dflt
  | write_batch rb2 values count _ ih => exact WF_WriteBatch rb2 k hC ih values count
  | read_batch rb2 dest count _ ih => exact WF_ReadBatch rb2 k hC ih dest count
  | clear rb2 _ ih => exact WF_Clear rb2 k hC ih

/-- At most `C - 1` elements are ever actually constructed in the slot
array. -/
lemma liveCount_le (rb : RingBuffer α C) (hWF : rb.WF) :
    rb.liveCount ≤ C - 1 := by
  obtain ⟨hlen, hr, hw, hlive⟩ := hWF
  have hslotw : rb.slot rb.writeIndex = none :=
    WF_slot_write rb ⟨hlen, hr, hw, hlive⟩
  have h1 : rb.liveCount ≤ rb.buffer.length := List.countP_le_length _
  have h2 : rb.liveCount ≠ rb.buffer.length := by
    intro heq
    have h3 := List.countP_eq_length.1 heq
    have h6 : rb.writeIndex < rb.buffer.length := by omega
    have h7 := List.getD_eq_getElem rb.buffer none h6
    unfold slot at hslotw
    rw [h7] at hslotw
    have h9 := h3 _ (List.getElem_mem h6)
    rw [hslotw] at h9
    simp at h9
  omega

end RingBuffer

open RingBuffer

/-- C3: For every buffer state, `Write(value)` returns false iff the buffer is
full (`nextIndex(writeIndex) == readIndex`); on failure it leaves the entire
state (both cursors and every slot) unchanged; on success it constructs the
value in the slot at the old `writeIndex` and advances `writeIndex` by one
modulo `Capacity`, leaving `readIndex` alone. -/
theorem spec_C3_write_contract {α : Type} {C : Nat} (k : Nat) (hC : C = 2 ^ k)
    (rb : RingBuffer α C) (v : α) :
    ((Write rb v).1 = false ↔ IncrementIndex C rb.writeIndex = rb.readIndex) ∧
    ((Write rb v).1 = false → (Write rb v).2 = rb) ∧
    ((Write rb v).1 = true →
      (Write rb v).2.buffer = rb.buffer.set rb.writeIndex (some v) ∧
      (Write rb v).2.writeIndex = (rb.writeIndex + 1) % C ∧
      (Write rb v).2.readIndex = rb.readIndex) := by
  by_cases hfull : IncrementIndex C rb.writeIndex = rb.readIndex
  · simp [Write_full rb v hfull, hfull]
  · have hfull2 : (rb.writeIndex + 1) % C ≠ rb.readIndex := by
      rwa [IncrementIndex_eq_mod k hC] at hfull
    simp [Write_ok rb v hfull, hfull2, IncrementIndex_eq_mod k hC]

/-- Witness for C3 at `C = 4` on the empty buffer. -/
theorem spec_C3_write_contract_witness :
    ((Write (mkEmpty Nat 4) 7).1 = false ↔
      IncrementIndex 4 (mkEmpty Nat 4).writeIndex = (mkEmpty Nat 4).readIndex) ∧
    ((Write (mkEmpty Nat 4) 7).1 = false → (Write (mkEmpty Nat 4) 7).2 = mkEmpty Nat 4) ∧
    ((Write (mkEmpty Nat 4) 7).1 = true →
      (Write (mkEmpty Nat 4) 7).2.buffer =
        (mkEmpty Nat 4).buffer.set (mkEmpty Nat 4).writeIndex (some 7) ∧
      (Write (mkEmpty Nat 4) 7).2.writeIndex = ((mkEmpty Nat 4).writeIndex + 1) % 4 ∧
      (Write (mkEmpty Nat 4) 7).2.readIndex = (mkEmpty Nat 4).readIndex) :=
  spec_C3_write_contract 2 rfl (mkEmpty Nat 4) 7

/-- C4: For every well-formed buffer state, `Read(value)` returns false iff the
buffer is empty (`readIndex == writeIndex`); on success it moves the oldest
live element (the one at `readIndex`) out into the result, destroys that slot,
and advances `readIndex` by one modulo `Capacity`, leaving `writeIndex`
alone. -/
theorem spec_C4_read_contract {α : Type} {C : Nat} (k : Nat) (hC : C = 2 ^ k)
    (rb : RingBuffer α C) (hWF : rb.WF) (dflt : α) :
    ((Read rb dflt).1 = false ↔ rb.readIndex = rb.writeIndex) ∧
    ((Read rb dflt).1 = true →
      rb.slot rb.readIndex = some (Read rb dflt).2.1 ∧
      (Read rb dflt).2.2.buffer = rb.buffer.set rb.readIndex none ∧
      (Read rb dflt).2.2.readIndex = (rb.readIndex + 1) % C ∧
      (Read rb dflt).2.2.writeIndex = rb.writeIndex) := by
  by_cases hne : rb.readIndex = rb.writeIndex
  · simp [Read_empty rb dflt hne, hne]
  · obtain ⟨v, hslot⟩ := WF_slot_read rb hWF hne
    simp [Read_ok rb dflt v hne hslot, hne, hslot, IncrementIndex_eq_mod k hC]

/-- Witness for C4 at `C = 4`: a buffer holding one element (5), read back. -/
theorem spec_C4_read_contract_witness :
    ((Read (Write (mkEmpty Nat 4) 5).2 0).1 = false ↔
      (Write (mkEmpty Nat 4) 5).2.readIndex = (Write (mkEmpty Nat 4) 5).2.writeIndex) ∧
    ((Read (Write (mkEmpty Nat 4) 5).2 0).1 = true →
      (Write (mkEmpty Nat 4) 5).2.slot (Write (mkEmpty Nat 4) 5).2.readIndex =
        some (Read (Write (mkEmpty Nat 4) 5).2 0).2.1 ∧
      (Read (Write (mkEmpty Nat 4) 5).2 0).2.2.buffer =
        (Write (mkEmpty Nat 4) 5).2.buffer.set (Write (mkEmpty Nat 4) 5).2.readIndex none ∧
      (Read (Write (mkEmpty Nat 4) 5).2 0).2.2.readIndex =
        ((Write (mkEmpty Nat 4) 5).2.readIndex + 1) % 4 ∧
      (Read (Write (mkEmpty Nat 4) 5).2 0).2.2.writeIndex =
        (Write (mkEmpty Nat 4) 5).2.writeIndex) :=
  spec_C4_read_contract 2 rfl (Write (mkEmpty Nat 4) 5).2 (by decide) 0

/-- C2: Single-threaded FIFO round-trip: starting from the empty buffer,
enqueueing a sequence `vs` (of length at most `Capacity - 1`, so that every
`Write` succeeds) and then dequeueing `vs.length` times by `Read` yields
exactly `vs`, in order. -/
theorem spec_C2_fifo {α : Type} {C : Nat} (k : Nat) (hC : C = 2 ^ k)
    (vs : List α) (h : vs.length ≤ C - 1) (dflt : α) :
    (writeSeqAux (mkEmpty α C) vs).1 = true ∧
    (readSeqAux (writeSeqAux (mkEmpty α C) vs).2 dflt vs.length).1 = vs := by
  have hfill := writeSeq_fill k hC vs [] (by simpa using h)
  simp only [List.map_nil, List.nil_append, List.length_nil, Nat.zero_add,
    Nat.sub_zero] at hfill
  have hmk : mkEmpty α C = (⟨List.replicate C none, 0, 0⟩ : RingBuffer α C) := rfl
  rw [hmk, hfill]
  have hdrain := readSeq_drain k hC dflt vs 0 (by omega)
  simp only [List.replicate_zero, List.nil_append, Nat.zero_add,
    Nat.sub_zero] at hdrain
  rw [hdrain]
  exact ⟨rfl, rfl⟩

/-- Witness for C2 at `C = 4` with `vs = [1, 2, 3]`. -/
theorem spec_C2_fifo_witness :
    (writeSeqAux (mkEmpty Nat 4) [1, 2, 3]).1 = true ∧
    (readSeqAux (writeSeqAux (mkEmpty Nat 4) [1, 2, 3]).2 0
      ([1, 2, 3] : List Nat).length).1 = [1, 2, 3] :=
  spec_C2_fifo 2 rfl [1, 2, 3] (by decide) 0

/-- C9: Capacity 1 passes the compile-time capacity validation, but usable
capacity is 0: in every well-formed state `nextIndex(writeIndex) == readIndex`,
so every `Write` fails, every `WriteBatch` returns 0, `IsFull()` is always
true, and `IsEmpty()` is true on the initial state. -/
theorem spec_C9_capacity_one {α : Type} (rb : RingBuffer α 1) (hWF : rb.WF)
    (v : α) (values : List α) (count : Nat) :
    capacityValid 1 ∧
    IncrementIndex 1 rb.writeIndex = rb.readIndex ∧
    (Write rb v).1 = false ∧
    (WriteBatch rb values count).1 = 0 ∧
    rb.IsFull = true ∧
    (mkEmpty α 1).IsEmpty = true := by
  obtain ⟨hlen, hr, hw, hlive⟩ := hWF
  have hr0 : rb.readIndex = 0 := by omega
  have hw0 : rb.writeIndex = 0 := by omega
  have hinc : IncrementIndex 1 rb.writeIndex = rb.readIndex := by
    rw [hr0, hw0]; decide
  refine ⟨by decide, hinc, ?_, ?_, ?_, by simp [mkEmpty, RingBuffer.IsEmpty]⟩
  · rw [Write_full rb v hinc]
  · unfold WriteBatch
    cases h : values.take count with
    | nil => simp [h, writeBatchGo]
    | cons a l => simp [h, writeBatchGo, hinc]
  · simp [IsFull, hinc]

/-- Witness for C9: the empty capacity-1 buffer, one write and one batch. -/
theorem spec_C9_capacity_one_witness :
    capacityValid 1 ∧
    IncrementIndex 1 (mkEmpty Nat 1).writeIndex = (mkEmpty Nat 1).readIndex ∧
    (Write (mkEmpty Nat 1) 3).1 = false ∧
    (WriteBatch (mkEmpty Nat 1) [1, 2] 2).1 = 0 ∧
    (mkEmpty Nat 1).IsFull = true ∧
    (mkEmpty Nat 1).IsEmpty = true :=
  spec_C9_capacity_one (mkEmpty Nat 1) (by decide) 3 [1, 2] 2

/-- C5: `WriteBatch(values, N)` enqueues exactly `min(N, free slots)` elements
from the front of `values` (each single write succeeding), returns that
number, and leaves the state identical to that many single-element `Write`s;
`ReadBatch(values, M)` dequeues exactly `min(M, Size)` oldest elements in FIFO
order, returns that number, leaves the state identical to the iterated
single-element `Read`s, and splices exactly the values read over the front of
the destination. -/
theorem spec_C5_batch_partiality {α : Type} {C : Nat} (k : Nat) (hC : C = 2 ^ k)
    (rb : RingBuffer α C) (hWF : rb.WF) (values dest : List α) (count : Nat)
    (hcount : count ≤ values.length) (hdest : count ≤ dest.length) (dflt : α) :
    (WriteBatch rb values count).1 = min count (C - 1 - rb.Size) ∧
    (writeSeqAux rb (values.take ((WriteBatch rb values count).1))).1 = true ∧
    (WriteBatch rb values count).2 =
      (writeSeqAux rb (values.take ((WriteBatch rb values count).1))).2 ∧
    (ReadBatch rb dest count).1 = min count rb.Size ∧
    (readSeqAux rb dflt count).1.length = (ReadBatch rb dest count).1 ∧
    (ReadBatch rb dest count).2.2 = (readSeqAux rb dflt count).2 ∧
    (ReadBatch rb dest count).2.1 =
      (readSeqAux rb dflt count).1 ++ dest.drop ((ReadBatch rb dest count).1) := by
  obtain ⟨hlen, hr, hw, hlive⟩ := hWF
  obtain ⟨hw1, hw2, hw3⟩ :=
    WriteBatch_spec rb k hC hr hw values count hcount
  obtain ⟨hr1, hr2, hr3, hr4⟩ :=
    ReadBatch_spec rb k hC ⟨hlen, hr, hw, hlive⟩ dflt dest count
  refine ⟨hw1, ?_, ?_, hr1, ?_, hr4, ?_⟩
  · rw [hw1]; exact hw2
  · rw [hw1]; exact hw3
  · rw [hr1]; exact hr2
  · rw [hr1, hr3]
    rw [setFrom_eq (readSeqAux rb dflt count).1 dest 0 (by rw [hr2]; omega)]
    simp [hr2, hr1]

/-- Witness for C5 at `C = 4`: one element in the buffer, batch-writing 3 into
2 free slots and batch-reading 3 from 1 live element. -/
theorem spec_C5_batch_partiality_witness :
    (WriteBatch (Write (mkEmpty Nat 4) 5).2 [10, 20, 30] 3).1 =
      min 3 (4 - 1 - (Write (mkEmpty Nat 4) 5).2.Size) ∧
    (writeSeqAux (Write (mkEmpty Nat 4) 5).2
      ([10, 20, 30].take ((WriteBatch (Write (mkEmpty Nat 4) 5).2 [10, 20, 30] 3).1))).1 = true ∧
    (WriteBatch (Write (mkEmpty Nat 4) 5).2 [10, 20, 30] 3).2 =
      (writeSeqAux (Write (mkEmpty Nat 4) 5).2
        ([10, 20, 30].take ((WriteBatch (Write (mkEmpty Nat 4) 5).2 [10, 20, 30] 3).1))).2 ∧
    (ReadBatch (Write (mkEmpty Nat 4) 5).2 [0, 0, 0] 3).1 =
      min 3 (Write (mkEmpty Nat 4) 5).2.Size ∧
    (readSeqAux (Write (mkEmpty Nat 4) 5).2 9 3).1.length =
      (ReadBatch (Write (mkEmpty Nat 4) 5).2 [0, 0, 0] 3).1 ∧
    (ReadBatch (Write (mkEmpty Nat 4) 5).2 [0, 0, 0] 3).2.2 =
      (readSeqAux (Write (mkEmpty Nat 4) 5).2 9 3).2 ∧
    (ReadBatch (Write (mkEmpty Nat 4) 5).2 [0, 0, 0] 3).2.1 =
      (readSeqAux (Write (mkEmpty Nat 4) 5).2 9 3).1 ++
        [0, 0, 0].drop ((ReadBatch (Write (mkEmpty Nat 4) 5).2 [0, 0, 0] 3).1) :=
  spec_C5_batch_partiality 2 rfl (Write (mkEmpty Nat 4) 5).2 (by decide)
    [10, 20, 30] [0, 0, 0] 3 (by decide) (by decide) 9

/-- C10: When `Read` returns false, the caller's out-parameter and the entire
buffer state are completely unchanged; `ReadBatch` writes only the first
`readCount` destination slots, leaving every later position untouched. -/
theorem spec_C10_failure_untouched {α : Type} {C : Nat} (rb : RingBuffer α C)
    (dflt : α) (dest : List α) (count j : Nat)
    (hfail : (Read rb dflt).1 = false)
    (hj : (ReadBatch rb dest count).1 ≤ j) :
    (Read rb dflt).2.1 = dflt ∧ (Read rb dflt).2.2 = rb ∧
    ((ReadBatch rb dest count).2.1)[j]? = dest[j]? := by
  obtain ⟨h1, h2⟩ := Read_fail rb dflt hfail
  refine ⟨h1, h2, ?_⟩
  have hrb1 : (ReadBatch rb dest count).1 =
      (readBatchGo C rb.writeIndex rb.buffer rb.readIndex dest 0 count).2.2.2 := by
    simp only [ReadBatch]
    split <;> rfl
  have hrb2 : (ReadBatch rb dest count).2.1 =
      (readBatchGo C rb.writeIndex rb.buffer rb.readIndex dest 0 count).2.2.1 := by
    simp only [ReadBatch]
    split <;> rfl
  rw [hrb1] at hj
  rw [hrb2]
  exact readBatchGo_untouched rb.writeIndex count rb.buffer rb.readIndex dest 0 j
    (Or.inl hj)

/-- Witness for C10: reading from the empty buffer with out-parameter 7,
batch-reading 2 from the empty buffer into `[1, 2, 3]`. -/
theorem spec_C10_failure_untouched_witness :
    (Read (mkEmpty Nat 4) 7).2.1 = 7 ∧ (Read (mkEmpty Nat 4) 7).2.2 = mkEmpty Nat 4 ∧
    ((ReadBatch (mkEmpty Nat 4) [1, 2, 3] 2).2.1)[0]? = ([1, 2, 3] : List Nat)[0]? :=
  spec_C10_failure_untouched (mkEmpty Nat 4) 7 [1, 2, 3] 2 0 (by decide) (by decide)

/-- C7 (amended: `Capacity ≥ 2`): after `Clear()` on a quiescent well-formed
buffer, `Size() = 0`, `IsEmpty()`, both cursors are 0, every slot has been
destroyed (all dead), each live slot index was destroyed exactly once (the
ghost destruction list is duplicate-free and contains exactly the live
indices), and a subsequent `Write` succeeds with its value returned by the
next `Read` as the first element. -/
theorem spec_C7_clear_resets {α : Type} {C : Nat} (k : Nat) (hC : C = 2 ^ k)
    (hC2 : 2 ≤ C) (rb : RingBuffer α C) (hWF : rb.WF) (v dflt : α) :
    (Clear rb).1.Size = 0 ∧
    (Clear rb).1.IsEmpty = true ∧
    (Clear rb).1.readIndex = 0 ∧
    (Clear rb).1.writeIndex = 0 ∧
    (∀ i, i < C → (Clear rb).1.slot i = none) ∧
    (Clear rb).2.Nodup ∧
    (∀ i, i ∈ (Clear rb).2 ↔ (i < C ∧ inLive C rb.readIndex rb.writeIndex i)) ∧
    (Write (Clear rb).1 v).1 = true ∧
    (Read (Write (Clear rb).1 v).2 dflt).1 = true ∧
    (Read (Write (Clear rb).1 v).2 dflt).2.1 = v := by
  obtain ⟨hlen, hr, hw, hlive⟩ := hWF
  rw [Clear_spec rb k hC ⟨hlen, hr, hw, hlive⟩]
  have hsz := Size_eq_offset rb hr hw
  have hinc0 : IncrementIndex C 0 = 1 := by
    rw [IncrementIndex_eq_mod k hC]
    exact Nat.mod_eq_of_lt (by omega)
  have hfull0 : IncrementIndex C 0 ≠ 0 := by rw [hinc0]; omega
  have hwok : Write (⟨List.replicate C none, 0, 0⟩ : RingBuffer α C) v =
      (true, ⟨(List.replicate C none).set 0 (some v), 0, 1⟩) := by
    have h1 := Write_ok (⟨List.replicate C none, 0, 0⟩ : RingBuffer α C) v hfull0
    rw [h1, hinc0]
  have hslot1 : (⟨(List.replicate C none).set 0 (some v), 0, 1⟩ :
      RingBuffer α C).slot 0 = some v := by
    show ((List.replicate C none).set 0 (some v)).getD 0 none = some v
    have hrep : C = (C - 1) + 1 := by omega
    rw [hrep, List.replicate_succ]
    rfl
  have hrok : Read (⟨(List.replicate C none).set 0 (some v), 0, 1⟩ :
      RingBuffer α C) dflt = (true, v,
      ⟨((List.replicate C none).set 0 (some v)).set 0 none,
        IncrementIndex C 0, 1⟩) :=
    Read_ok _ dflt v (show (0 : Nat) ≠ 1 by omega) hslot1
  refine ⟨by simp [Size], by simp [RingBuffer.IsEmpty], rfl, rfl,
    fun i hi => slot_mkEmpty i hi, ?_, ?_, ?_, ?_, ?_⟩
  · rw [hsz]
    exact liveIdx_nodup rb.readIndex rb.writeIndex hr hw
  · intro i
    rw [hsz]
    exact liveIdx_mem rb.readIndex rb.writeIndex hr hw i
  · rw [hwok]
  · rw [hwok]
    dsimp only
    rw [hrok]
  · rw [hwok]
    dsimp only
    rw [hrok]

/-- Counterexample to C7 as stated: at `Capacity = 1` (accepted by the
compile-time validation) the `Clear` postconditions on `Size`/`IsEmpty` hold,
but the subsequent `Write` fails instead of succeeding. -/
theorem spec_C7_counterexample :
    (Clear (mkEmpty Nat 1)).1.Size = 0 ∧
    (Clear (mkEmpty Nat 1)).1.IsEmpty = true ∧
    (Write (Clear (mkEmpty Nat 1)).1 42).1 = false := by decide

/-- Witness for the amended C7 at `C = 4` on a buffer holding one element. -/
theorem spec_C7_clear_resets_witness :
    (Clear (Write (mkEmpty Nat 4) 5).2).1.Size = 0 ∧
    (Clear (Write (mkEmpty Nat 4) 5).2).1.IsEmpty = true ∧
    (Clear (Write (mkEmpty Nat 4) 5).2).1.readIndex = 0 ∧
    (Clear (Write (mkEmpty Nat 4) 5).2).1.writeIndex = 0 ∧
    (∀ i, i < 4 → (Clear (Write (mkEmpty Nat 4) 5).2).1.slot i = none) ∧
    (Clear (Write (mkEmpty Nat 4) 5).2).2.Nodup ∧
    (∀ i, i ∈ (Clear (Write (mkEmpty Nat 4) 5).2).2 ↔
      (i < 4 ∧ inLive 4 (Write (mkEmpty Nat 4) 5).2.readIndex
        (Write (mkEmpty Nat 4) 5).2.writeIndex i)) ∧
    (Write (Clear (Write (mkEmpty Nat 4) 5).2).1 8).1 = true ∧
    (Read (Write (Clear (Write (mkEmpty Nat 4) 5).2).1 8).2 0).1 = true ∧
    (Read (Write (Clear (Write (mkEmpty Nat 4) 5).2).1 8).2 0).2.1 = 8 :=
  spec_C7_clear_resets 2 rfl (by omega) (Write (mkEmpty Nat 4) 5).2 (by decide) 8 0

/-- C6: Every public operation preserves the state invariant (cursors in
`[0, Capacity)` and slot liveness matching the cursor range, i.e. `WF`);
`Size` never exceeds `Capacity - 1`; `Write` advances only `writeIndex` (by
`nextIndex` or not at all) and never touches `readIndex`; `Read` advances only
`readIndex` and never touches `writeIndex`; `WriteBatch` never touches
`readIndex`; `ReadBatch` never touches `writeIndex`. -/
theorem spec_C6_invariants {α : Type} {C : Nat} (k : Nat) (hC : C = 2 ^ k)
    (rb : RingBuffer α C) (hWF : rb.WF) (v dflt : α) (values dest : List α)
    (count : Nat) :
    rb.readIndex < C ∧ rb.writeIndex < C ∧ rb.Size ≤ C - 1 ∧
    (Write rb v).2.WF ∧
    (Write rb v).2.readIndex = rb.readIndex ∧
    ((Write rb v).2.writeIndex = rb.writeIndex ∨
      (Write rb v).2.writeIndex = IncrementIndex C rb.writeIndex) ∧
    (Read rb dflt).2.2.WF ∧
    (Read rb dflt).2.2.writeIndex = rb.writeIndex ∧
    ((Read rb dflt).2.2.readIndex = rb.readIndex ∨
      (Read rb dflt).2.2.readIndex = IncrementIndex C rb.readIndex) ∧
    (WriteBatch rb values count).2.WF ∧
    (WriteBatch rb values count).2.readIndex = rb.readIndex ∧
    (ReadBatch rb dest count).2.2.WF ∧
    (ReadBatch rb dest count).2.2.writeIndex = rb.writeIndex ∧
    (Clear rb).1.WF :=
  ⟨hWF.2.1, hWF.2.2.1, Size_le rb hWF.2.2.1,
   WF_write rb k hC hWF v, Write_readIndex rb v, Write_writeIndex rb v,
   WF_read rb k hC hWF dflt, Read_writeIndex rb dflt, Read_readIndex rb dflt,
   WF_WriteBatch rb k hC hWF values count, WriteBatch_readIndex rb values count,
   WF_ReadBatch rb k hC hWF dest count, ReadBatch_writeIndex rb dest count,
   WF_Clear rb k hC hWF⟩

/-- Witness for C6 at `C = 4` on a buffer holding one element. -/
theorem spec_C6_invariants_witness :
    (Write (mkEmpty Nat 4) 5).2.readIndex < 4 ∧
    (Write (mkEmpty Nat 4) 5).2.writeIndex < 4 ∧
    (Write (mkEmpty Nat 4) 5).2.Size ≤ 4 - 1 ∧
    (Write (Write (mkEmpty Nat 4) 5).2 6).2.WF ∧
    (Write (Write (mkEmpty Nat 4) 5).2 6).2.readIndex =
      (Write (mkEmpty Nat 4) 5).2.readIndex ∧
    ((Write (Write (mkEmpty Nat 4) 5).2 6).2.writeIndex =
        (Write (mkEmpty Nat 4) 5).2.writeIndex ∨
      (Write (Write (mkEmpty Nat 4) 5).2 6).2.writeIndex =
        IncrementIndex 4 (Write (mkEmpty Nat 4) 5).2.writeIndex) ∧
    (Read (Write (mkEmpty Nat 4) 5).2 0).2.2.WF ∧
    (Read (Write (mkEmpty Nat 4) 5).2 0).2.2.writeIndex =
      (Write (mkEmpty Nat 4) 5).2.writeIndex ∧
    ((Read (Write (mkEmpty Nat 4) 5).2 0).2.2.readIndex =
        (Write (mkEmpty Nat 4) 5).2.readIndex ∨
      (Read (Write (mkEmpty Nat 4) 5).2 0).2.2.readIndex =
        IncrementIndex 4 (Write (mkEmpty Nat 4) 5).2.readIndex) ∧
    (WriteBatch (Write (mkEmpty Nat 4) 5).2 [7, 8] 2).2.WF ∧
    (WriteBatch (Write (mkEmpty Nat 4) 5).2 [7, 8] 2).2.readIndex =
      (Write (mkEmpty Nat 4) 5).2.readIndex ∧
    (ReadBatch (Write (mkEmpty Nat 4) 5).2 [0, 0] 2).2.2.WF ∧
    (ReadBatch (Write (mkEmpty Nat 4) 5).2 [0, 0] 2).2.2.writeIndex =
      (Write (mkEmpty Nat 4) 5).2.writeIndex ∧
    (Clear (Write (mkEmpty Nat 4) 5).2).1.WF :=
  spec_C6_invariants 2 rfl (Write (mkEmpty Nat 4) 5).2 (by decide) 6 0 [7, 8]
    [0, 0] 2

/-- C1: From the empty buffer, `C - 1` consecutive `Write`s all succeed, the
`C`-th `Write` (with those elements still live) fails; and in every reachable
state at most `C - 1` elements are actually live in the slot array. -/
theorem spec_C1_capacity_law {α : Type} {C : Nat} (k : Nat) (hC : C = 2 ^ k)
    (vs : List α) (hlen : vs.length = C - 1) (v : α) :
    (writeSeqAux (mkEmpty α C) vs).1 = true ∧
    (Write (writeSeqAux (mkEmpty α C) vs).2 v).1 = false ∧
    (∀ rb : RingBuffer α C, Reach rb → rb.liveCount ≤ C - 1) := by
  have hCpos := pos_of_pow hC
  have hfill := writeSeq_fill k hC vs [] (by simp [hlen])
  simp only [List.map_nil, List.nil_append, List.length_nil, Nat.zero_add,
    Nat.sub_zero] at hfill
  have hmk : mkEmpty α C = (⟨List.replicate C none, 0, 0⟩ : RingBuffer α C) := rfl
  rw [hmk, hfill]
  have hfull : IncrementIndex C vs.length = 0 := by
    rw [IncrementIndex_eq_mod k hC, hlen]
    have h2 : C - 1 + 1 = C := by omega
    rw [h2, Nat.mod_self]
  refine ⟨rfl, ?_, fun rb hreach => liveCount_le rb (Reach_WF k hC rb hreach)⟩
  rw [Write_full _ v hfull]

/-- Witness for C1 at `C = 4` with the three writes `[1, 2, 3]`. -/
theorem spec_C1_capacity_law_witness :
    (writeSeqAux (mkEmpty Nat 4) [1, 2, 3]).1 = true ∧
    (Write (writeSeqAux (mkEmpty Nat 4) [1, 2, 3]).2 9).1 = false ∧
    (∀ rb : RingBuffer Nat 4, Reach rb → rb.liveCount ≤ 4 - 1) :=
  spec_C1_capacity_law 2 rfl [1, 2, 3] (by decide) 9
